import Mathlib

/-!
Shallow embedding of the PNICER numerical utility layer
(`src/pnicer/utils.py` and `src/pnicer/utils/gmm.py`) and proofs about it.

Numerical arrays are modelled as `List ℚ` (exact rational arithmetic in
place of IEEE floats), n-dimensional shapes as `List ℕ`, and Python
`None` as `Option`.  One-dimensional Gaussian mixture models are records
of per-component parameter lists.
-/

namespace Pnicer

/-- `np.mean` of an array, modelled on rational lists (`sum / length`). -/
def npMean (l : List ℚ) : ℚ := l.sum / l.length

/-- `get_color_covar` from `src/pnicer/utils.py` (lines 141-205).
Builds the 2×2 error-covariance matrix for the colors `mag1 - mag2` and
`mag3 - mag4`, returned row-major as `((c00, c01), (c10, c11))`.
Mirrors the source exactly: `c00 = mean(magerr1)**2 + mean(magerr2)**2`,
`c11 = mean(magerr3)**2 * mean(magerr4)**2` (the source multiplies here),
and the cross term accumulates `±mean·mean` for each shared band name. -/
def get_color_covar (magerr1 magerr2 magerr3 magerr4 : List ℚ)
    (name1 name2 name3 name4 : ℕ) : (ℚ × ℚ) × (ℚ × ℚ) :=
  let c00 := npMean magerr1 ^ 2 + npMean magerr2 ^ 2
  let c11 := npMean magerr3 ^ 2 * npMean magerr4 ^ 2
  let cov0 : ℚ := 0
  let cov1 := if name1 = name3 then cov0 + npMean magerr1 * npMean magerr3 else cov0
  let cov2 := if name1 = name4 then cov1 - npMean magerr1 * npMean magerr4 else cov1
  let cov3 := if name2 = name3 then cov2 - npMean magerr2 * npMean magerr3 else cov2
  let cov4 := if name2 = name4 then cov3 + npMean magerr2 * npMean magerr4 else cov3
  ((c00, cov4), (cov4, c11))

/-- A fitted 1-D `sklearn` `GaussianMixture`: per-component lists of the
fitted attributes.  `covariances_` holds the per-component variances (the
1×1 covariance matrices), `precisions_` their inverses, and
`precisions_cholesky_` the Cholesky factors of the precisions. -/
structure GMM where
  weights_ : List ℚ
  means_ : List ℚ
  covariances_ : List ℚ
  precisions_ : List ℚ
  precisions_cholesky_ : List ℚ
deriving DecidableEq

/-- `gmm_scale` from `src/pnicer/utils/gmm.py` (lines 14-70), with numpy
aliasing made explicit.  The result is `(gmm_new, gmm_after)` where
`gmm_after` is the state of the input model after the call: when `shift`
is `none` the source line `gmm_new.means_ = gmm.means_` aliases the input
array, so the in-place updates `gmm_new.means_ /= scale` and
`gmm_new.means_ *= -1` write through to the input's `means_`.  For the
1×1 covariance matrices `np.linalg.inv` is the componentwise inverse and
`np.linalg.cholesky` the componentwise square root; the square root is
abstracted as the parameter `sq`, whose values are only ever written into
the freshly allocated result array. -/
def gmm_scale (sq : ℚ → ℚ) (gmm : GMM) (shift scale : Option ℚ)
    (reverse : Bool) : GMM × GMM :=
  let means0 := match shift with
    | some sh => gmm.means_.map (fun x => x + sh)
    | none => gmm.means_
  let means1 := match scale with
    | some sc => means0.map (fun x => x / sc)
    | none => means0
  let means2 := if reverse then means1.map (fun x => -x) else means1
  let covs := match scale with
    | some sc => gmm.covariances_.map (fun c => c / sc ^ 2)
    | none => gmm.covariances_
  let precs := match scale with
    | some _ => covs.map (fun c => c⁻¹)
    | none => gmm.precisions_
  let chol := match scale with
    | some _ => precs.map sq
    | none => gmm.precisions_cholesky_
  let gmm_new : GMM := ⟨gmm.weights_, means2, covs, precs, chol⟩
  let gmm_after : GMM := if shift.isNone then { gmm with means_ := means2 } else gmm
  (gmm_new, gmm_after)

/-- `combine_gmms` from `src/pnicer/utils/gmm.py` (lines 467-513).
`none` for the result models the `IndexError` the source raises on
`gmms[0]` for an empty model list, or on `weights[0]` for an explicitly
empty weight list.  `np.vstack`/`np.hstack` on the per-component parameter
arrays are list concatenation; `zip(gmms[1:], weights[1:])` truncates to
the shorter list.  The componentwise square root in `np.linalg.cholesky`
is abstracted as `sq` as in `gmm_scale`. -/
def combine_gmms (sq : ℚ → ℚ) (gmms : List GMM) (weights : Option (List ℚ)) :
    Option GMM :=
  let ws := match weights with
    | none => List.replicate gmms.length (1 : ℚ)
    | some ws => ws
  match gmms, ws with
  | [], _ => none
  | _, [] => none
  | g0 :: grest, w0 :: wrest =>
    let zipped := grest.zip wrest
    let gmm_means := g0.means_ ++ (zipped.map (fun p => p.1.means_)).flatten
    let gmm_weights := g0.weights_.map (fun x => x * w0) ++
      (zipped.map (fun p => p.1.weights_.map (fun x => x * p.2))).flatten
    let gmm_variances := g0.covariances_ ++ (zipped.map (fun p => p.1.covariances_)).flatten
    let total := gmm_weights.sum
    let precs := gmm_variances.map (fun c => c⁻¹)
    some ⟨gmm_weights.map (fun x => x / total), gmm_means, gmm_variances,
      precs, precs.map sq⟩

/-- `np.min` over a nonempty list, with 0 for the empty list (where numpy
raises instead). -/
def npListMin : List ℚ → ℚ
  | [] => 0
  | x :: xs => xs.foldl min x

/-- `np.max` over a nonempty list, with 0 for the empty list (where numpy
raises instead). -/
def npListMax : List ℚ → ℚ
  | [] => 0
  | x :: xs => xs.foldl max x

/-- The raw sample count of `gmm_sample_xy` from `src/pnicer/utils/gmm.py`
(lines 99-109), from the per-component standard deviations
`s = np.sqrt(gmm.covariances_.ravel())` (taken here as the input, so that
all arithmetic stays rational) and means `m = gmm.means_.ravel()`:
`qmin = min(m - kappa*s)`, `qmax = max(m + kappa*s)`, and the count is
`(qmax - qmin) / (min(s) / sampling)`. -/
def gmm_nsamples_raw (s m : List ℚ) (kappa sampling : ℚ) : ℚ :=
  let qmin := npListMin ((s.zip m).map (fun p => p.2 - kappa * p.1))
  let qmax := npListMax ((s.zip m).map (fun p => p.2 + kappa * p.1))
  (qmax - qmin) / (npListMin s / sampling)

/-- The final sample count of `gmm_sample_xy` (lines 112-113 of
`src/pnicer/utils/gmm.py`): `nsamples = 100 if nsamples < nmin else
nsamples`, then `nsamples = 100000 if nsamples > nmax else nsamples`. -/
def gmm_nsamples (s m : List ℚ) (kappa sampling nmin nmax : ℚ) : ℚ :=
  let n0 := gmm_nsamples_raw s m kappa sampling
  let n1 := if n0 < nmin then 100 else n0
  if n1 > nmax then 100000 else n1

/-- `dx = np.ediff1d(gmm_x)[0]` in `gmm_confidence_interval_value`
(line 305 of `src/pnicer/utils/gmm.py`): the first grid spacing. -/
def dxOf (x : List ℚ) : ℚ := x.getD 1 0 - x.getD 0 0

/-- `np.argmin`: index of the first minimal element (0 for the empty list,
where numpy raises instead). -/
def npArgmin (l : List ℚ) : ℕ :=
  (l.foldl
    (fun (acc : ℕ × ℕ × ℚ) q =>
      if q < acc.2.2 then (acc.2.1, acc.2.1 + 1, q) else (acc.1, acc.2.1 + 1, acc.2.2))
    (0, 0, l.headD 0)).1

/-- `value_idx = np.argmin(np.abs(gmm_x - value))` (line 308 of
`src/pnicer/utils/gmm.py`). -/
def vidxOf (x : List ℚ) (value : ℚ) : ℕ := npArgmin (x.map (fun t => |t - value|))

/-- `np.trapz(ys, dx=dx)`: trapezoid rule with uniform spacing; 0 for
fewer than two points. -/
def npTrapz (ys : List ℚ) (dx : ℚ) : ℚ :=
  match ys with
  | [] => 0
  | _ :: rest => ((ys.zip rest).map (fun p => (p.1 + p.2) / 2)).sum * dx

/-- The index window of iteration `i` of the loop in
`gmm_confidence_interval_value` (lines 314-315 of
`src/pnicer/utils/gmm.py`): `lidx = value_idx - i if value_idx - i >= 0
else 0` (truncated subtraction on `ℕ`) and `ridx = value_idx + i if
value_idx + i < n else n - 1`. -/
def ciWindow (vidx n i : ℕ) : ℕ × ℕ :=
  (vidx - i, if vidx + i < n then vidx + i else n - 1)

/-- The summed left-plus-right trapezoid mass of iteration `i` (lines
318-323 of `src/pnicer/utils/gmm.py`): `np.trapz(gmm_y[lidx:value_idx],
dx=dx) + np.trapz(gmm_y[value_idx:ridx], dx=dx)`, with Python slices
`y[a:b]` rendered as `(y.drop a).take (b - a)`. -/
def ciMass (y : List ℚ) (dx : ℚ) (vidx n i : ℕ) : ℚ :=
  let lidx := (ciWindow vidx n i).1
  let ridx := (ciWindow vidx n i).2
  npTrapz ((y.drop lidx).take (vidx - lidx)) dx +
    npTrapz ((y.drop vidx).take (ridx - vidx)) dx

/-- The loop `for i in range(len(gmm_x))` of
`gmm_confidence_interval_value` (lines 311-327 of
`src/pnicer/utils/gmm.py`): starting from `i`, return the window of the
first iteration whose mass exceeds `level` (the `break`), or the window
of the last iteration `n - 1` when no iteration breaks. -/
def ciSearch (y : List ℚ) (dx : ℚ) (vidx n : ℕ) (level : ℚ) (i : ℕ) : ℕ × ℕ :=
  if level < ciMass y dx vidx n i then ciWindow vidx n i
  else if i + 1 < n then ciSearch y dx vidx n level (i + 1)
  else ciWindow vidx n i
termination_by n - i

/-- The half-width selection of `gmm_confidence_interval_value` (line 331
of `src/pnicer/utils/gmm.py`): `value - gmm_x[lidx]` if
`value_idx - lidx > ridx - value_idx`, else `gmm_x[ridx] - value`. -/
def ciHalf (x : List ℚ) (value : ℚ) (vidx lidx ridx : ℕ) : ℚ :=
  if ridx - vidx < vidx - lidx then value - x.getD lidx 0 else x.getD ridx 0 - value

/-- `gmm_confidence_interval_value` from `src/pnicer/utils/gmm.py`
(lines 298-334), factored over the sampled arrays: `x` and `y` stand for
`gmm_x, gmm_y = gmm_sample_xy(gmm, kappa=5, sampling=100, nmin=1000,
nmax=100000)`, the library evaluation of the mixture density on a uniform
grid.  Everything after that call is translated exactly. -/
def gmm_confidence_interval_value_samples (x y : List ℚ) (value level : ℚ) :
    ℚ × ℚ :=
  let dx := dxOf x
  let vidx := vidxOf x value
  let w := ciSearch y dx vidx x.length level 0
  let ci_half_size := ciHalf x value vidx w.1 w.2
  (value - ci_half_size, value + ci_half_size)

/-- `np.round(q, decimals=0)` for a scalar: round half to even. -/
def npRound (q : ℚ) : ℤ :=
  let f := ⌊q⌋
  let r := q - f
  if r < 1 / 2 then f
  else if 1 / 2 < r then f + 1
  else if Even f then f else f + 1

/-- `gmm_components` from `src/pnicer/utils/gmm.py` (lines 338-367):
`None` maps to `None`; otherwise `n = np.round(len(data)/n_per_component)`
as an integer, replaced by `max_components` when above it and by 1 when
below 1. -/
def gmm_components (data : Option (List ℚ)) (max_components n_per_component : ℤ) :
    Option ℤ :=
  match data with
  | none => none
  | some d =>
    let n0 := npRound ((d.length : ℚ) / (n_per_component : ℚ))
    let n1 := if max_components < n0 then max_components else n0
    some (if n1 < 1 then 1 else n1)

/-- The component counts computed by `mp_gmm` (line 409 of
`src/pnicer/utils/gmm.py`): `gmm_components` applied to every entry with
its default `n_per_component = 20`. -/
def mp_gmm_ncomponents (data : List (Option (List ℚ))) (max_components : ℤ) :
    List (Option ℤ) :=
  data.map (fun d => gmm_components d max_components 20)

/-- The subsampling pass of `mp_gmm` (lines 412-417 of
`src/pnicer/utils/gmm.py`), returning the state of the caller's data list
after the loop: each non-`None` entry longer than `ndata_max` is replaced
by the `ndata_max` elements selected by `np.random.choice(len, size=
ndata_max, replace=False)`; the random choice is abstracted as the oracle
`choice n k`, a list of `k` indices below `n`. -/
def mp_gmm_subsample (choice : ℕ → ℕ → List ℕ) (ndata_max : Option ℕ)
    (data : List (Option (List ℚ))) : List (Option (List ℚ)) :=
  match ndata_max with
  | none => data
  | some nd =>
    data.map (fun entry =>
      match entry with
      | none => none
      | some l =>
        if nd < l.length then some ((choice l.length nd).map (fun i => l.getD i 0))
        else some l)

/-- The two validation failures of `mp_kde`. -/
inductive MpKdeFail where
  | configFail : MpKdeFail
  | dimFail : MpKdeFail
deriving DecidableEq

/-- Python truthiness of the `sampling` argument of `mp_kde`: `None` and
0 are falsy. -/
def truthy : Option ℚ → Bool
  | none => false
  | some q => q != 0

/-- The validation prefix of `mp_kde` from `src/pnicer/utils.py`
(lines 381-388): first `if absolute: if not sampling: raise ValueError`
(the configuration error), then `if len(grid.shape) != len(data.shape):
raise ValueError` (the dimensionality error); `none` means no error is
raised and evaluation proceeds.  Shapes are modelled as lists of axis
lengths. -/
def mp_kde_validate (absolute : Bool) (sampling : Option ℚ)
    (gridShape dataShape : List ℕ) : Option MpKdeFail :=
  if absolute && !truthy sampling then some MpKdeFail.configFail
  else if gridShape.length ≠ dataShape.length then some MpKdeFail.dimFail
  else none

/-- The angular unit argument of `distance_sky` (`"radians"` or
`"degrees"`; the source tests `"deg" in unit`). -/
inductive AngleUnit where
  | radians : AngleUnit
  | degrees : AngleUnit
deriving DecidableEq

/-- `distance_sky` from `src/pnicer/utils.py` (lines 26-59), over the real
numbers: degree inputs are converted with `np.radians` (multiplication by
`π / 180`), the haversine distance is
`2 * arcsin (sqrt (sin²((b1-b2)/2) + cos b1 * cos b2 * sin²((l1-l2)/2)))`,
and degree output is converted back with `np.rad2deg`. -/
noncomputable def distance_sky (lon1 lat1 lon2 lat2 : ℝ) (unit : AngleUnit) : ℝ :=
  let l1 := if unit = AngleUnit.degrees then lon1 * (Real.pi / 180) else lon1
  let l2 := if unit = AngleUnit.degrees then lon2 * (Real.pi / 180) else lon2
  let b1 := if unit = AngleUnit.degrees then lat1 * (Real.pi / 180) else lat1
  let b2 := if unit = AngleUnit.degrees then lat2 * (Real.pi / 180) else lat2
  let dis := 2 * Real.arcsin (Real.sqrt
    (Real.sin ((b1 - b2) / 2) ^ 2 + Real.cos b1 * Real.cos b2 * Real.sin ((l1 - l2) / 2) ^ 2))
  if unit = AngleUnit.degrees then dis * (180 / Real.pi) else dis

end Pnicer

/-- C1: the claim states both diagonal entries of `get_color_covar` are sums
of squared means.  This holds for entry `[0,0]`, but the source computes the
product, not the sum, for entry `[1,1]`: at `magerr3 = [1]`, `magerr4 = [2]`
(means 1 and 2) the code yields `1 * 4 = 4` where the claim requires
`1 + 4 = 5`.  This theorem records the code's value at that failing input. -/
theorem c1_color_covar_diag_eval :
    (∀ e1 e2 e3 e4 n1 n2 n3 n4, (Pnicer.get_color_covar e1 e2 e3 e4 n1 n2 n3 n4).1.1 =
      Pnicer.npMean e1 ^ 2 + Pnicer.npMean e2 ^ 2) ∧
    (Pnicer.get_color_covar [1] [1] [1] [2] 1 2 3 4).2.2 = 4 ∧
    Pnicer.npMean [1] ^ 2 + Pnicer.npMean [2] ^ 2 = 5 ∧
    ((4 : ℚ) ≠ 5) := by
  refine ⟨fun e1 e2 e3 e4 n1 n2 n3 n4 => rfl, ?_, ?_, by norm_num⟩
  · show Pnicer.npMean [1] ^ 2 * Pnicer.npMean [2] ^ 2 = 4
    norm_num [Pnicer.npMean]
  · norm_num [Pnicer.npMean]

/-- C2: the claim states `gmm_scale` never mutates the input model.  The
code aliases the input's `means_` array when `shift` is `None` and then
divides it in place when `scale` is given: at `shift=None, scale=2` on a
one-component model with mean 1, the input model's `means_` is `[1/2]`
after the call, so the input is changed. -/
theorem c2_gmm_scale_mutates_input :
    (Pnicer.gmm_scale id ⟨[1], [1], [1], [1], [1]⟩ none (some 2) false).2.means_ = [1 / 2] ∧
    (Pnicer.gmm_scale id ⟨[1], [1], [1], [1], [1]⟩ none (some 2) false).2 ≠
      (⟨[1], [1], [1], [1], [1]⟩ : Pnicer.GMM) := by
  constructor
  · norm_num [Pnicer.gmm_scale]
  · intro h
    have hm := congrArg Pnicer.GMM.means_ h
    rw [show (Pnicer.gmm_scale id ⟨[1], [1], [1], [1], [1]⟩ none (some 2) false).2.means_ =
      [1 / 2] by norm_num [Pnicer.gmm_scale]] at hm
    simp at hm

/-- C4 counterexample: the claim states that for every `nmin`, `nmax`, a
computed count below `nmin` yields exactly 100 evaluation points.  With
`s = [1]`, `m = [0]`, `kappa = 3`, `sampling = 10` the computed count is
60; with `nmin = 70`, `nmax = 50` the count is below `nmin` yet the value
used is 100000, because the replacement value 100 itself exceeds `nmax`
and is then replaced again. -/
theorem c4_nsamples_counterexample :
    Pnicer.gmm_nsamples_raw [1] [0] 3 10 = 60 ∧
    Pnicer.gmm_nsamples_raw [1] [0] 3 10 < 70 ∧
    Pnicer.gmm_nsamples [1] [0] 3 10 70 50 = 100000 ∧
    Pnicer.gmm_nsamples [1] [0] 3 10 70 50 ≠ 100 := by
  have h : Pnicer.gmm_nsamples_raw [1] [0] 3 10 = 60 := by
    norm_num [Pnicer.gmm_nsamples_raw, Pnicer.npListMin, Pnicer.npListMax]
  refine ⟨h, by rw [h]; norm_num, ?_, ?_⟩
  · rw [Pnicer.gmm_nsamples, h]; norm_num
  · rw [Pnicer.gmm_nsamples, h]; norm_num

/-- C4 amended: the two replacements are applied in sequence, the second
to the possibly already replaced value; under sane bounds
`100 ≤ nmin ≤ nmax` the claim's statement holds: a computed count below
`nmin` gives exactly the fixed 100 (not `nmin`), and a computed count
above `nmax` gives exactly the fixed 100000 (not `nmax`). -/
theorem c4_nsamples_replacement (s m : List ℚ) (kappa sampling nmin nmax : ℚ)
    (h100 : 100 ≤ nmin) (hmm : nmin ≤ nmax) :
    (Pnicer.gmm_nsamples_raw s m kappa sampling < nmin →
      Pnicer.gmm_nsamples s m kappa sampling nmin nmax = 100) ∧
    (nmax < Pnicer.gmm_nsamples_raw s m kappa sampling →
      Pnicer.gmm_nsamples s m kappa sampling nmin nmax = 100000) := by
  unfold Pnicer.gmm_nsamples
  constructor
  · intro hlt
    simp only [if_pos hlt]
    rw [if_neg]
    linarith
  · intro hgt
    by_cases hlt : Pnicer.gmm_nsamples_raw s m kappa sampling < nmin
    · linarith
    · simp only [if_neg hlt]
      rw [if_pos]
      linarith

/-- C4 witness: at the defaults `nmin = 100`, `nmax = 100000` with a
computed count of 60, the count used is exactly 100. -/
theorem c4_nsamples_witness :
    Pnicer.gmm_nsamples [1] [0] 3 10 100 100000 = 100 :=
  (c4_nsamples_replacement [1] [0] 3 10 100 100000 (by norm_num) (by norm_num)).1
    (by norm_num [Pnicer.gmm_nsamples_raw, Pnicer.npListMin, Pnicer.npListMax])

/-- C5: for every entry of the data collection, the component count
computed by `mp_gmm` (via `gmm_components` with its default
`n_per_component = 20`) is `np.round(len(d)/20)` clamped into
`[1, max_components]` (as `max 1 (min · max_components)`), and `None`
entries map to `None`; `np.round` rounds half to even. -/
theorem c5_components_clamp (data : List (Option (List ℚ))) (mc : ℤ) :
    Pnicer.mp_gmm_ncomponents data mc =
      data.map (fun od => od.map (fun d =>
        max 1 (min (Pnicer.npRound ((d.length : ℚ) / 20)) mc))) := by
  unfold Pnicer.mp_gmm_ncomponents
  refine List.map_congr_left (fun od _ => ?_)
  cases od with
  | none => rfl
  | some d =>
    show Pnicer.gmm_components (some d) mc 20 =
      some (max 1 (min (Pnicer.npRound ((d.length : ℚ) / 20)) mc))
    simp only [Pnicer.gmm_components]
    push_cast
    congr 1
    rw [max_def, min_def]
    split_ifs <;> omega

/-- C7 counterexample: the claim states that whenever grid and data have
different numbers of axes, `mp_kde` fails with the dimensionality error.
When additionally `absolute=True` with no sampling factor, the
configuration check fires first: with grid shape `[2]` (one axis) and
data shape `[2, 2]` (two axes) the error raised is the configuration
error, not the dimensionality error. -/
theorem c7_mp_kde_counterexample :
    Pnicer.mp_kde_validate true none [2] [2, 2] = some Pnicer.MpKdeFail.configFail ∧
    Pnicer.MpKdeFail.configFail ≠ Pnicer.MpKdeFail.dimFail ∧
    ([2] : List ℕ).length ≠ ([2, 2] : List ℕ).length := by
  refine ⟨rfl, by decide, by decide⟩

/-- C7 amended: `mp_kde` checks the configuration first: with
`absolute=True` and no sampling factor it fails with the configuration
error; a grid/data axis-count mismatch fails with the dimensionality
error whenever the configuration check did not already fail; and with
`absolute=False` and matching axis counts neither error is raised. -/
theorem c7_mp_kde_validate_spec (absolute : Bool) (sampling : Option ℚ)
    (gs ds : List ℕ) :
    (absolute = true → sampling = none →
      Pnicer.mp_kde_validate absolute sampling gs ds = some Pnicer.MpKdeFail.configFail) ∧
    (¬(absolute = true ∧ Pnicer.truthy sampling = false) → gs.length ≠ ds.length →
      Pnicer.mp_kde_validate absolute sampling gs ds = some Pnicer.MpKdeFail.dimFail) ∧
    (absolute = false → gs.length = ds.length →
      Pnicer.mp_kde_validate absolute sampling gs ds = none) := by
  refine ⟨?_, ?_, ?_⟩
  · intro ha hs
    subst ha hs
    simp [Pnicer.mp_kde_validate, Pnicer.truthy]
  · intro hno hne
    have hcond : (absolute && !Pnicer.truthy sampling) = false := by
      cases absolute <;> cases h : Pnicer.truthy sampling <;> simp_all
    simp [Pnicer.mp_kde_validate, hcond, hne]
  · intro ha he
    subst ha
    simp [Pnicer.mp_kde_validate, he]

/-- C7 witness: with `absolute=False` and matching one-axis shapes no
error is raised. -/
theorem c7_mp_kde_validate_witness :
    Pnicer.mp_kde_validate false none [3] [3] = none :=
  (c7_mp_kde_validate_spec false none [3] [3]).2.2 rfl rfl

/-- C8: `distance_sky` is symmetric in its two points for either angular
unit, and the distance from a point to itself is 0.  (The haversine
argument only swaps even powers of sines of negated differences and the
order of the cosine product.) -/
theorem c8_distance_sky_symm_self (lon1 lat1 lon2 lat2 : ℝ) (unit : Pnicer.AngleUnit) :
    Pnicer.distance_sky lon1 lat1 lon2 lat2 unit =
      Pnicer.distance_sky lon2 lat2 lon1 lat1 unit ∧
    Pnicer.distance_sky lon1 lat1 lon1 lat1 unit = 0 := by
  have hsin : ∀ a b : ℝ, Real.sin ((a - b) / 2) ^ 2 = Real.sin ((b - a) / 2) ^ 2 := by
    intro a b
    rw [show (b - a) / 2 = -((a - b) / 2) by ring, Real.sin_neg]
    ring
  have key : ∀ a b c d : ℝ,
      2 * Real.arcsin (Real.sqrt (Real.sin ((b - d) / 2) ^ 2 +
        Real.cos b * Real.cos d * Real.sin ((a - c) / 2) ^ 2)) =
      2 * Real.arcsin (Real.sqrt (Real.sin ((d - b) / 2) ^ 2 +
        Real.cos d * Real.cos b * Real.sin ((c - a) / 2) ^ 2)) := by
    intro a b c d
    rw [hsin b d, hsin a c, mul_comm (Real.cos b)]
  have self0 : ∀ a b : ℝ,
      2 * Real.arcsin (Real.sqrt (Real.sin ((b - b) / 2) ^ 2 +
        Real.cos b * Real.cos b * Real.sin ((a - a) / 2) ^ 2)) = 0 := by
    intro a b
    simp
  cases unit with
  | radians =>
    refine ⟨?_, ?_⟩
    · simp only [Pnicer.distance_sky, reduceIte]
      exact key lon1 lat1 lon2 lat2
    · simp only [Pnicer.distance_sky, reduceIte]
      exact self0 lon1 lat1
  | degrees =>
    refine ⟨?_, ?_⟩
    · simp only [Pnicer.distance_sky, reduceIte]
      rw [key (lon1 * (Real.pi / 180)) (lat1 * (Real.pi / 180))
        (lon2 * (Real.pi / 180)) (lat2 * (Real.pi / 180))]
    · simp only [Pnicer.distance_sky, reduceIte]
      rw [self0 (lon1 * (Real.pi / 180)) (lat1 * (Real.pi / 180))]
      ring

/-- C9: after the subsampling pass of `mp_gmm`, the caller's data list has
the same length; `None` entries and entries of length at most `ndata_max`
are unchanged; and every entry longer than `ndata_max` has been replaced
by a subsample of exactly `ndata_max` elements drawn from that entry.
The random index selection is any oracle producing `k` indices below `n`
for `np.random.choice(n, size=k, replace=False)`. -/
theorem c9_subsample_spec (choice : ℕ → ℕ → List ℕ) (nd : ℕ)
    (data : List (Option (List ℚ)))
    (hlen : ∀ n k, k ≤ n → (choice n k).length = k)
    (hbound : ∀ n k i, k ≤ n → i ∈ choice n k → i < n) :
    (Pnicer.mp_gmm_subsample choice (some nd) data).length = data.length ∧
    ∀ i, i < data.length →
      (data.getD i none = none →
        (Pnicer.mp_gmm_subsample choice (some nd) data).getD i none = none) ∧
      (∀ l, data.getD i none = some l → l.length ≤ nd →
        (Pnicer.mp_gmm_subsample choice (some nd) data).getD i none = some l) ∧
      (∀ l, data.getD i none = some l → nd < l.length →
        ∃ l2, (Pnicer.mp_gmm_subsample choice (some nd) data).getD i none = some l2 ∧
          l2.length = nd ∧ ∀ q ∈ l2, q ∈ l) := by
  constructor
  · simp [Pnicer.mp_gmm_subsample]
  · intro i hi
    have hres : (Pnicer.mp_gmm_subsample choice (some nd) data).getD i none =
        (fun entry =>
          match entry with
          | none => none
          | some l =>
            if nd < l.length then
              some ((choice l.length nd).map (fun j => l.getD j 0))
            else some l) data[i] := by
      have hi2 : i < (Pnicer.mp_gmm_subsample choice (some nd) data).length := by
        show i < (data.map _).length
        rw [List.length_map]
        exact hi
      rw [List.getD_eq_getElem _ _ hi2]
      show (data.map _)[i] = _
      rw [List.getElem_map]
    rw [List.getD_eq_getElem data none hi, hres]
    rcases hdi : data[i] with _ | l
    · refine ⟨fun _ => rfl, fun l2 hl2 _ => ?_, fun l2 hl2 _ => ?_⟩
      · exact absurd hl2 (by simp)
      · exact absurd hl2 (by simp)
    · refine ⟨fun h0 => absurd h0 (by simp), ?_, ?_⟩
      · intro l2 hl2 hle
        have hll : l = l2 := by
          injection hl2
        subst hll
        show (if nd < l.length then
          some ((choice l.length nd).map (fun j => l.getD j 0)) else some l) = some l
        rw [if_neg (by omega)]
      · intro l2 hl2 hgt
        have hll : l = l2 := by
          injection hl2
        subst hll
        show ∃ l3, (if nd < l.length then
            some ((choice l.length nd).map (fun j => l.getD j 0)) else some l) = some l3 ∧
          l3.length = nd ∧ ∀ q ∈ l3, q ∈ l
        rw [if_pos hgt]
        refine ⟨_, rfl, ?_, ?_⟩
        · rw [List.length_map, hlen l.length nd (le_of_lt hgt)]
        · intro q hq
          rcases List.mem_map.mp hq with ⟨j, hj, rfl⟩
          have hjlt : j < l.length := hbound l.length nd j (le_of_lt hgt) hj
          rw [List.getD_eq_getElem l 0 hjlt]
          exact List.getElem_mem hjlt

/-- C9 witness: with the oracle that picks the first `k` indices,
`ndata_max = 1` and the single two-element entry `[5, 7]`, the entry is
replaced by a one-element subsample drawn from it. -/
theorem c9_subsample_witness :
    ∃ l2, (Pnicer.mp_gmm_subsample (fun _ k => List.range k) (some 1)
        [some [5, 7]]).getD 0 none = some l2 ∧
      l2.length = 1 ∧ ∀ q ∈ l2, q ∈ [(5 : ℚ), 7] :=
  ((c9_subsample_spec (fun _ k => List.range k) 1 [some [5, 7]]
      (fun _ k _ => List.length_range k)
      (fun _ k i hk hi => lt_of_lt_of_le (List.mem_range.mp hi) hk)).2 0
      (by norm_num)).2.2 [5, 7] (by norm_num) (by norm_num)

/-- Sum of a list after multiplying every element on the right. -/
theorem sumMapMulRight (l : List ℚ) (r : ℚ) :
    (l.map (fun x => x * r)).sum = l.sum * r := by
  induction l with
  | nil => simp
  | cons a t ih => simp [ih, add_mul]

/-- Sum of a list after dividing every element by a constant. -/
theorem sumMapDiv (l : List ℚ) (t : ℚ) :
    (l.map (fun x => x / t)).sum = l.sum / t := by
  simpa [div_eq_mul_inv] using sumMapMulRight l t⁻¹

/-- A list of nonnegative rationals has a nonnegative sum. -/
theorem sumNonnegQ (l : List ℚ) (h : ∀ x ∈ l, 0 ≤ x) : 0 ≤ l.sum := by
  induction l with
  | nil => simp
  | cons a t ih =>
    have ha := h a (List.mem_cons_self a t)
    have ht := ih (fun x hx => h x (List.mem_cons_of_mem a hx))
    simp only [List.sum_cons]
    linarith

/-- Dividing a nonnegative list with positive sum by its sum gives a
nonnegative list summing to 1. -/
theorem mapDivSumOne (raw : List ℚ) (h0 : ∀ x ∈ raw, 0 ≤ x) (hpos : 0 < raw.sum) :
    (∀ x ∈ raw.map (fun x => x / raw.sum), 0 ≤ x) ∧
      (raw.map (fun x => x / raw.sum)).sum = 1 := by
  constructor
  · intro x hx
    rcases List.mem_map.mp hx with ⟨r, hr, rfl⟩
    exact div_nonneg (h0 r hr) (le_of_lt hpos)
  · rw [sumMapDiv]
    exact div_self (ne_of_gt hpos)

/-- Mapping the first projection over a zip equals mapping over the
truncated first list, when the second list is not longer. -/
theorem zipMapFstTake {α β γ : Type} (f : α → γ) :
    ∀ (bs : List β) (as : List α), bs.length ≤ as.length →
      (as.zip bs).map (fun p => f p.1) = (as.take bs.length).map f := by
  intro bs
  induction bs with
  | nil =>
    intro as h
    simp
  | cons b bs2 ih =>
    intro as h
    cases as with
    | nil => simp at h
    | cons a as2 =>
      simp only [List.zip_cons_cons, List.map_cons, List.length_cons, List.take_succ_cons]
      rw [ih as2 (by simpa using h)]

/-- C6: for a nonempty list of fitted models, each with nonnegative
component weights summing to 1, and positive combination weights covering
all models, `combine_gmms` returns a model whose component weights are
nonnegative and sum to 1; and `combine_gmms([m], weights=None)` returns a
model whose weights, means and covariances (and hence component count)
equal those of `m`. -/
theorem c6_combine_weights (sq : ℚ → ℚ) (gmms : List Pnicer.GMM) (ws : List ℚ)
    (m : Pnicer.GMM)
    (hne : gmms ≠ [])
    (hcov : gmms.length ≤ ws.length)
    (hpos : ∀ w ∈ ws, 0 < w)
    (hgw : ∀ g ∈ gmms, (∀ x ∈ g.weights_, 0 ≤ x) ∧ g.weights_.sum = 1)
    (_hmw : ∀ x ∈ m.weights_, 0 ≤ x) (hms : m.weights_.sum = 1) :
    (∃ gc, Pnicer.combine_gmms sq gmms (some ws) = some gc ∧
      (∀ x ∈ gc.weights_, 0 ≤ x) ∧ gc.weights_.sum = 1) ∧
    (∃ gc, Pnicer.combine_gmms sq [m] none = some gc ∧
      gc.weights_ = m.weights_ ∧ gc.means_ = m.means_ ∧
      gc.covariances_ = m.covariances_) := by
  constructor
  · cases gmms with
    | nil => exact absurd rfl hne
    | cons g0 grest =>
      cases ws with
      | nil => simp at hcov
      | cons w0 wrest =>
        have hraw : ∀ x ∈ (g0.weights_.map (fun x => x * w0) ++
            ((grest.zip wrest).map
              (fun p => p.1.weights_.map (fun x => x * p.2))).flatten), 0 ≤ x := by
          intro x hx
          rcases List.mem_append.mp hx with hx1 | hx2
          · rcases List.mem_map.mp hx1 with ⟨a, ha, rfl⟩
            exact mul_nonneg ((hgw g0 (List.mem_cons_self g0 grest)).1 a ha)
              (le_of_lt (hpos w0 (List.mem_cons_self w0 wrest)))
          · rcases List.mem_flatten.mp hx2 with ⟨sub, hsub, hxsub⟩
            rcases List.mem_map.mp hsub with ⟨⟨p1, p2⟩, hp, rfl⟩
            rcases List.mem_map.mp hxsub with ⟨a, ha, rfl⟩
            have hp12 := List.of_mem_zip hp
            exact mul_nonneg
              ((hgw p1 (List.mem_cons_of_mem g0 hp12.1)).1 a ha)
              (le_of_lt (hpos p2 (List.mem_cons_of_mem w0 hp12.2)))
        have htotal : 0 < (g0.weights_.map (fun x => x * w0) ++
            ((grest.zip wrest).map
              (fun p => p.1.weights_.map (fun x => x * p.2))).flatten).sum := by
          rw [List.sum_append, sumMapMulRight, (hgw g0 (List.mem_cons_self g0 grest)).2,
            one_mul]
          have hrest : 0 ≤ (((grest.zip wrest).map
              (fun p => p.1.weights_.map (fun x => x * p.2))).flatten).sum :=
            sumNonnegQ _ (fun x hx => hraw x (List.mem_append_right _ hx))
          have hw0 := hpos w0 (List.mem_cons_self w0 wrest)
          linarith
        exact ⟨_, rfl, mapDivSumOne _ hraw htotal⟩
  · refine ⟨_, rfl, ?_, ?_, ?_⟩
    · show ((m.weights_.map (fun x => x * 1) ++
        (([] : List (Pnicer.GMM × ℚ)).map
          (fun (p : Pnicer.GMM × ℚ) => p.1.weights_.map (fun x => x * p.2))).flatten).map
        (fun x => x / (m.weights_.map (fun x => x * 1) ++
          (([] : List (Pnicer.GMM × ℚ)).map
            (fun (p : Pnicer.GMM × ℚ) => p.1.weights_.map (fun x => x * p.2))).flatten).sum)) = m.weights_
      simp [hms]
    · show m.means_ ++ (([] : List (Pnicer.GMM × ℚ)).map
        (fun (p : Pnicer.GMM × ℚ) => p.1.means_)).flatten = m.means_
      simp
    · show m.covariances_ ++ (([] : List (Pnicer.GMM × ℚ)).map
        (fun (p : Pnicer.GMM × ℚ) => p.1.covariances_)).flatten = m.covariances_
      simp

/-- C6 witness: two copies of a two-component model combined with weights
`[1, 2]` give nonnegative weights summing to 1, and the singleton
combination with default weights reproduces the model. -/
theorem c6_combine_weights_witness :
    (∃ gc, Pnicer.combine_gmms id
        [⟨[1 / 2, 1 / 2], [0, 1], [1, 1], [1, 1], [1, 1]⟩,
         ⟨[1 / 2, 1 / 2], [0, 1], [1, 1], [1, 1], [1, 1]⟩] (some [1, 2]) = some gc ∧
      (∀ x ∈ gc.weights_, 0 ≤ x) ∧ gc.weights_.sum = 1) ∧
    (∃ gc, Pnicer.combine_gmms id
        [(⟨[1 / 2, 1 / 2], [0, 1], [1, 1], [1, 1], [1, 1]⟩ : Pnicer.GMM)] none = some gc ∧
      gc.weights_ = (⟨[1 / 2, 1 / 2], [0, 1], [1, 1], [1, 1], [1, 1]⟩ : Pnicer.GMM).weights_ ∧
      gc.means_ = (⟨[1 / 2, 1 / 2], [0, 1], [1, 1], [1, 1], [1, 1]⟩ : Pnicer.GMM).means_ ∧
      gc.covariances_ =
        (⟨[1 / 2, 1 / 2], [0, 1], [1, 1], [1, 1], [1, 1]⟩ : Pnicer.GMM).covariances_) :=
  c6_combine_weights id
    [⟨[1 / 2, 1 / 2], [0, 1], [1, 1], [1, 1], [1, 1]⟩,
     ⟨[1 / 2, 1 / 2], [0, 1], [1, 1], [1, 1], [1, 1]⟩] [1, 2]
    ⟨[1 / 2, 1 / 2], [0, 1], [1, 1], [1, 1], [1, 1]⟩
    (by simp)
    (by simp)
    (by norm_num)
    (by
      intro g hg
      rcases List.mem_cons.mp hg with rfl | hg2
      · exact ⟨by norm_num, by norm_num⟩
      · rcases List.mem_cons.mp hg2 with rfl | hg3
        · exact ⟨by norm_num, by norm_num⟩
        · simp at hg3)
    (by norm_num)
    (by norm_num)

/-- C10: with n models (n ≥ 2) and an explicit weights list of length k,
1 ≤ k < n, `combine_gmms` raises no error about the mismatch (it returns
a model) and the result's components are exactly those of the first k
input models: its means and covariances are the concatenation over
`gmms.take k`, and its weight count matches, so models k..n-1 contribute
no components. -/
theorem c10_combine_truncates (sq : ℚ → ℚ) (gmms : List Pnicer.GMM) (ws : List ℚ)
    (h1 : 1 ≤ ws.length) (h2 : ws.length < gmms.length) :
    ∃ gc, Pnicer.combine_gmms sq gmms (some ws) = some gc ∧
      gc.means_ = ((gmms.take ws.length).map Pnicer.GMM.means_).flatten ∧
      gc.covariances_ = ((gmms.take ws.length).map Pnicer.GMM.covariances_).flatten ∧
      gc.weights_.length =
        (((gmms.take ws.length).map Pnicer.GMM.weights_).flatten).length := by
  cases gmms with
  | nil => simp at h2
  | cons g0 grest =>
    cases ws with
    | nil => simp at h1
    | cons w0 wrest =>
      have hk : wrest.length ≤ grest.length := by
        simp only [List.length_cons] at h2
        omega
      refine ⟨_, rfl, ?_, ?_, ?_⟩
      · show g0.means_ ++ ((grest.zip wrest).map
            (fun p => p.1.means_)).flatten =
          (((g0 :: grest).take (w0 :: wrest).length).map Pnicer.GMM.means_).flatten
        simp only [List.length_cons, List.take_succ_cons, List.map_cons, List.flatten_cons]
        rw [zipMapFstTake Pnicer.GMM.means_ wrest grest hk]
      · show g0.covariances_ ++ ((grest.zip wrest).map
            (fun p => p.1.covariances_)).flatten =
          (((g0 :: grest).take (w0 :: wrest).length).map Pnicer.GMM.covariances_).flatten
        simp only [List.length_cons, List.take_succ_cons, List.map_cons, List.flatten_cons]
        rw [zipMapFstTake Pnicer.GMM.covariances_ wrest grest hk]
      · show ((g0.weights_.map (fun x => x * w0) ++
            ((grest.zip wrest).map
              (fun p => p.1.weights_.map (fun x => x * p.2))).flatten).map
            (fun x => x / (g0.weights_.map (fun x => x * w0) ++
              ((grest.zip wrest).map
                (fun p => p.1.weights_.map (fun x => x * p.2))).flatten).sum)).length =
          ((((g0 :: grest).take (w0 :: wrest).length).map Pnicer.GMM.weights_).flatten).length
        have hzl : ((grest.zip wrest).map
            (fun p => p.1.weights_.map (fun x => x * p.2))).map List.length =
            ((grest.take wrest.length).map Pnicer.GMM.weights_).map List.length := by
          rw [List.map_map, List.map_map]
          have e1 : (grest.zip wrest).map
              (List.length ∘ (fun (p : Pnicer.GMM × ℚ) =>
                p.1.weights_.map (fun x => x * p.2))) =
              (grest.zip wrest).map (fun p => p.1.weights_.length) :=
            List.map_congr_left (fun p _ => by simp [Function.comp, List.length_map])
          have e2 : (grest.take wrest.length).map
              (fun g : Pnicer.GMM => g.weights_.length) =
              (grest.take wrest.length).map (List.length ∘ Pnicer.GMM.weights_) :=
            List.map_congr_left (fun g _ => by simp [Function.comp])
          rw [e1, zipMapFstTake (fun g : Pnicer.GMM => g.weights_.length) wrest grest hk, e2]
        simp only [List.length_cons, List.take_succ_cons, List.map_cons, List.flatten_cons,
          List.length_map, List.length_append, List.length_flatten]
        rw [hzl]

/-- C10 witness: two one-component models combined with the length-1
weight list `[2]` silently yield a model made only of the first model's
component. -/
theorem c10_combine_truncates_witness :
    ∃ gc, Pnicer.combine_gmms id
        [⟨[1], [0], [1], [1], [1]⟩, ⟨[1], [9], [2], [1], [1]⟩] (some [2]) = some gc ∧
      gc.means_ = ((([⟨[1], [0], [1], [1], [1]⟩,
        (⟨[1], [9], [2], [1], [1]⟩ : Pnicer.GMM)].take [(2 : ℚ)].length).map
          Pnicer.GMM.means_).flatten) ∧
      gc.covariances_ = ((([⟨[1], [0], [1], [1], [1]⟩,
        (⟨[1], [9], [2], [1], [1]⟩ : Pnicer.GMM)].take [(2 : ℚ)].length).map
          Pnicer.GMM.covariances_).flatten) ∧
      gc.weights_.length = (((([⟨[1], [0], [1], [1], [1]⟩,
        (⟨[1], [9], [2], [1], [1]⟩ : Pnicer.GMM)].take [(2 : ℚ)].length).map
          Pnicer.GMM.weights_).flatten).length) :=
  c10_combine_truncates id
    [⟨[1], [0], [1], [1], [1]⟩, ⟨[1], [9], [2], [1], [1]⟩] [2]
    (by norm_num) (by norm_num)

/-- The loop of `gmm_confidence_interval_value` returns the window of the
least iteration at or after `i` whose mass exceeds `level`, or of the last
iteration `n - 1` when none does. -/
theorem ciSearchLeast (y : List ℚ) (dx : ℚ) (vidx n : ℕ) (level : ℚ) :
    ∀ fuel i, n ≤ i + fuel → i < n →
      (∀ j, j < i → ¬ level < Pnicer.ciMass y dx vidx n j) →
      ∃ k, k < n ∧ (level < Pnicer.ciMass y dx vidx n k ∨ k = n - 1) ∧
        (∀ j, j < k → ¬ level < Pnicer.ciMass y dx vidx n j) ∧
        Pnicer.ciSearch y dx vidx n level i = Pnicer.ciWindow vidx n k := by
  intro fuel
  induction fuel with
  | zero =>
    intro i hf hin hprev
    omega
  | succ f ih =>
    intro i hf hin hprev
    by_cases hm : level < Pnicer.ciMass y dx vidx n i
    · refine ⟨i, hin, Or.inl hm, hprev, ?_⟩
      rw [Pnicer.ciSearch.eq_def, if_pos hm]
    · by_cases hnext : i + 1 < n
      · have hprev2 : ∀ j, j < i + 1 → ¬ level < Pnicer.ciMass y dx vidx n j := by
          intro j hj
          rcases (by omega : j < i ∨ j = i) with h | h
          · exact hprev j h
          · rw [h]
            exact hm
        obtain ⟨k, hk1, hk2, hk3, hk4⟩ := ih (i + 1) (by omega) hnext hprev2
        refine ⟨k, hk1, hk2, hk3, ?_⟩
        rw [Pnicer.ciSearch.eq_def, if_neg hm, if_pos hnext]
        exact hk4
      · refine ⟨i, hin, Or.inr (by omega), hprev, ?_⟩
        rw [Pnicer.ciSearch.eq_def, if_neg hm, if_neg hnext]

/-- C3 amended: for every sampled density, query value and level,
`gmm_confidence_interval_value` returns the pair
`(value - h, value + h)` — always symmetric around `value` — where `h` is
`ciHalf` evaluated at the window of the first symmetric-in-index
iteration whose summed left-plus-right trapezoid mass exceeds `level`
(or of the last iteration when none exceeds it): `h` is the distance
from `value` to the left endpoint when the left index reach is strictly
larger than the right one, and the distance to the right endpoint
otherwise — in particular on ties of the index reaches the right-side
distance is used even when the left-side distance is larger. -/
theorem c3_ci_value_amended (x y : List ℚ) (value level : ℚ) (hx : 0 < x.length) :
    ∃ k, k < x.length ∧
      (level < Pnicer.ciMass y (Pnicer.dxOf x) (Pnicer.vidxOf x value) x.length k ∨
        k = x.length - 1) ∧
      (∀ j, j < k →
        ¬ level < Pnicer.ciMass y (Pnicer.dxOf x) (Pnicer.vidxOf x value) x.length j) ∧
      Pnicer.gmm_confidence_interval_value_samples x y value level =
        (value - Pnicer.ciHalf x value (Pnicer.vidxOf x value)
            (Pnicer.ciWindow (Pnicer.vidxOf x value) x.length k).1
            (Pnicer.ciWindow (Pnicer.vidxOf x value) x.length k).2,
         value + Pnicer.ciHalf x value (Pnicer.vidxOf x value)
            (Pnicer.ciWindow (Pnicer.vidxOf x value) x.length k).1
            (Pnicer.ciWindow (Pnicer.vidxOf x value) x.length k).2) := by
  obtain ⟨k, hk1, hk2, hk3, hk4⟩ :=
    ciSearchLeast y (Pnicer.dxOf x) (Pnicer.vidxOf x value) x.length level
      x.length 0 (by omega) hx (by omega)
  refine ⟨k, hk1, hk2, hk3, ?_⟩
  show (value - Pnicer.ciHalf x value (Pnicer.vidxOf x value)
      (Pnicer.ciSearch y (Pnicer.dxOf x) (Pnicer.vidxOf x value) x.length level 0).1
      (Pnicer.ciSearch y (Pnicer.dxOf x) (Pnicer.vidxOf x value) x.length level 0).2,
    value + Pnicer.ciHalf x value (Pnicer.vidxOf x value)
      (Pnicer.ciSearch y (Pnicer.dxOf x) (Pnicer.vidxOf x value) x.length level 0).1
      (Pnicer.ciSearch y (Pnicer.dxOf x) (Pnicer.vidxOf x value) x.length level 0).2) = _
  rw [hk4]

/-- C3 witness for the amended characterization theorem, at the
one-point grid `x = [0]` with density `y = [5]`. -/
theorem c3_ci_value_amended_witness :
    ∃ k, k < ([(0 : ℚ)] : List ℚ).length ∧
      ((1 : ℚ) < Pnicer.ciMass [5] (Pnicer.dxOf [0]) (Pnicer.vidxOf [0] 0)
          ([(0 : ℚ)] : List ℚ).length k ∨
        k = ([(0 : ℚ)] : List ℚ).length - 1) ∧
      (∀ j, j < k →
        ¬ (1 : ℚ) < Pnicer.ciMass [5] (Pnicer.dxOf [0]) (Pnicer.vidxOf [0] 0)
          ([(0 : ℚ)] : List ℚ).length j) ∧
      Pnicer.gmm_confidence_interval_value_samples [0] [5] 0 1 =
        ((0 : ℚ) - Pnicer.ciHalf [0] 0 (Pnicer.vidxOf [0] 0)
            (Pnicer.ciWindow (Pnicer.vidxOf [0] 0) ([(0 : ℚ)] : List ℚ).length k).1
            (Pnicer.ciWindow (Pnicer.vidxOf [0] 0) ([(0 : ℚ)] : List ℚ).length k).2,
         (0 : ℚ) + Pnicer.ciHalf [0] 0 (Pnicer.vidxOf [0] 0)
            (Pnicer.ciWindow (Pnicer.vidxOf [0] 0) ([(0 : ℚ)] : List ℚ).length k).1
            (Pnicer.ciWindow (Pnicer.vidxOf [0] 0) ([(0 : ℚ)] : List ℚ).length k).2) :=
  c3_ci_value_amended [0] [5] 0 1 (by norm_num)

/-- C3 counterexample: the claim says the half-width is the larger of the
two side-distances from `value` at the breaking window.  On the uniform
grid `[0,1,2,3,4]` with constant density `[1,1,1,1,1]`, `value = 9/4`,
`level = 1/2`, the loop breaks at the window `(0, 4)` around
`value_idx = 2`; the left side-distance is `9/4` and the right one `7/4`,
so the claim predicts the interval `(9/4 - 9/4, 9/4 + 9/4) = (0, 9/2)`.
The code compares index reaches (tied at 2 here), takes the right branch,
and returns `(1/2, 4)`. -/
theorem c3_ci_value_counterexample :
    Pnicer.gmm_confidence_interval_value_samples [0, 1, 2, 3, 4] [1, 1, 1, 1, 1]
      (9 / 4) (1 / 2) = (1 / 2, 4) ∧
    Pnicer.ciSearch [1, 1, 1, 1, 1] (Pnicer.dxOf [0, 1, 2, 3, 4])
      (Pnicer.vidxOf [0, 1, 2, 3, 4] (9 / 4))
      ([0, 1, 2, 3, 4] : List ℚ).length (1 / 2) 0 = (0, 4) ∧
    (9 / 4 : ℚ) - ([0, 1, 2, 3, 4] : List ℚ).getD 0 0 = 9 / 4 ∧
    ([0, 1, 2, 3, 4] : List ℚ).getD 4 0 - 9 / 4 = 7 / 4 ∧
    max ((9 / 4 : ℚ) - ([0, 1, 2, 3, 4] : List ℚ).getD 0 0)
      (([0, 1, 2, 3, 4] : List ℚ).getD 4 0 - 9 / 4) = 9 / 4 ∧
    Pnicer.gmm_confidence_interval_value_samples [0, 1, 2, 3, 4] [1, 1, 1, 1, 1]
      (9 / 4) (1 / 2) ≠ (9 / 4 - 9 / 4, 9 / 4 + 9 / 4) := by
  have hdx : Pnicer.dxOf [0, 1, 2, 3, 4] = 1 := by
    norm_num [Pnicer.dxOf]
  have hvidx : Pnicer.vidxOf [0, 1, 2, 3, 4] (9 / 4) = 2 := by
    unfold Pnicer.vidxOf
    rw [show ([0, 1, 2, 3, 4] : List ℚ).map (fun t => |t - 9 / 4|) =
      [9 / 4, 5 / 4, 1 / 4, 3 / 4, 7 / 4] by norm_num]
    norm_num [Pnicer.npArgmin]
  have hlen : ([0, 1, 2, 3, 4] : List ℚ).length = 5 := by
    norm_num
  have hsearch : Pnicer.ciSearch [1, 1, 1, 1, 1] 1 2 5 (1 / 2) 0 = (0, 4) := by
    have h0 : Pnicer.ciMass [1, 1, 1, 1, 1] 1 2 5 0 = 0 := by
      norm_num [Pnicer.ciMass, Pnicer.ciWindow, Pnicer.npTrapz]
    have h1 : Pnicer.ciMass [1, 1, 1, 1, 1] 1 2 5 1 = 0 := by
      norm_num [Pnicer.ciMass, Pnicer.ciWindow, Pnicer.npTrapz]
    have h2 : Pnicer.ciMass [1, 1, 1, 1, 1] 1 2 5 2 = 2 := by
      norm_num [Pnicer.ciMass, Pnicer.ciWindow, Pnicer.npTrapz]
    rw [Pnicer.ciSearch.eq_def, h0, if_neg (by norm_num)]
    rw [if_pos (by norm_num)]
    rw [Pnicer.ciSearch.eq_def, h1, if_neg (by norm_num)]
    rw [if_pos (by norm_num)]
    rw [Pnicer.ciSearch.eq_def, h2, if_pos (by norm_num)]
    norm_num [Pnicer.ciWindow]
  have hmain : Pnicer.gmm_confidence_interval_value_samples [0, 1, 2, 3, 4]
      [1, 1, 1, 1, 1] (9 / 4) (1 / 2) = (1 / 2, 4) := by
    simp only [Pnicer.gmm_confidence_interval_value_samples]
    rw [hdx, hvidx, hlen, hsearch]
    norm_num [Pnicer.ciHalf, List.getD]
  refine ⟨hmain, ?_, by norm_num [List.getD], by norm_num [List.getD], ?_, ?_⟩
  · rw [hdx, hvidx, hlen]
    exact hsearch
  · rw [show ((9 / 4 : ℚ) - ([0, 1, 2, 3, 4] : List ℚ).getD 0 0) = 9 / 4 by
      norm_num [List.getD]]
    rw [show (([0, 1, 2, 3, 4] : List ℚ).getD 4 0 - 9 / 4) = 7 / 4 by
      norm_num [List.getD]]
    norm_num
  · rw [hmain]
    intro h
    rw [Prod.ext_iff] at h
    norm_num at h
